import Mathlib

set_option maxRecDepth 10000

namespace Chip8

/-! Shallow embedding of `src/preprocessor/src/main.rs` from `n8pjl/chip8-ti68k`.
Bytes are modelled as `Nat` (values `< 256` where it matters); machine
integers are `Nat` with explicit `% 2 ^ w` at the points where the Rust
code truncates (`as u8`, `as u16`, `as u32`). -/

/-- Length of the longest common initial run of two lists; this is the
`zip`/`take_while`/`count` computation of `compress` (main.rs lines 159-163). -/
def commonLen : List Nat → List Nat → Nat
  | a :: as, b :: bs => if a = b then commonLen as bs + 1 else 0
  | _, _ => 0

/-- Match length between source position `p` and current position `i`:
the common initial run of the two suffixes `src[p..]` and `src[i..]`. -/
def matchLen (src : List Nat) (p i : Nat) : Nat :=
  commonLen (src.drop p) (src.drop i)

/-- Candidate list of the window scan (main.rs lines 152-165): window indices
`j` with `src[ws + j] = src[i]`, paired with their match lengths, in window
order. -/
def candList (src : List Nat) (ws i : Nat) : List (Nat × Nat) :=
  ((List.range (i - ws)).filter (fun j => src.getD (ws + j) 0 == src.getD i 0)).map
    (fun j => (j, matchLen src (ws + j) i))

/-- The `max_by` reduction of main.rs lines 166-173: the comparator returns
`Greater` exactly when the running best's length is `≥` the new candidate's,
so an equal-length candidate never replaces the running best; no candidate
gives `(0, 0)` (the `unwrap_or`). -/
def bestMatch (src : List Nat) (ws i : Nat) : Nat × Nat :=
  match candList src ws i with
  | [] => (0, 0)
  | c :: cs => cs.foldl (fun a b => if a.2 ≥ b.2 then a else b) c

/-- Literal encoding cost of `len` bytes starting at `p` (main.rs lines
177-181): a flag byte (0xFF) costs 2, any other byte costs 1. -/
def litCost (src : List Nat) (p len : Nat) : Nat :=
  ((src.drop p).take len).foldl (fun a e => a + if e = 255 then 2 else 1) 0

/-- The inner `push_literal` helper (main.rs lines 136-143): 0xFF is escaped
as 0xFF 0x00, any other byte is emitted as itself. -/
def pushLiteral (b : Nat) : List Nat :=
  if b = 255 then [255, 0] else [b]

/-- The `while i < src.len()` loop of `compress` (main.rs lines 148-191),
with an explicit fuel argument: every iteration advances `i` by at least 1,
so fuel `src.length` makes the fuelled loop identical to the Rust loop.
`ws` is `i.saturating_sub(1024)`; the back-reference emits
`0xFF, ((offset & 768) >> 2 | len) as u8, offset as u8` and advances by
`len`; otherwise a literal is emitted and `i` advances by 1. -/
def compressFrom (src : List Nat) : Nat → Nat → List Nat
  | 0, _ => []
  | fuel + 1, i =>
    if i < src.length then
      let ws := i - 1024
      let j := (bestMatch src ws i).1
      let len := min (bestMatch src ws i).2 63
      if 3 < litCost src (ws + j) len then
        let offset := i - ws - j - 1
        255 :: (((offset &&& 768) >>> 2 ||| len) % 256) :: (offset % 256) ::
          compressFrom src fuel (i + len)
      else
        pushLiteral (src.getD i 0) ++ compressFrom src fuel (i + 1)
    else []

/-- `compress` (main.rs lines 131-194). -/
def compress (src : List Nat) : List Nat := compressFrom src src.length 0

/-- The token alphabet of the compressed stream (spec §4.1): a literal byte
or a back-reference with a backward offset and a length. -/
inductive Token where
  | lit : Nat → Token
  | backref : Nat → Nat → Token
deriving DecidableEq

/-- Serialization of one token exactly as `compress` emits it: a literal is
escaped by doubling when it is the flag byte; a back-reference is the flag
byte, the high offset bits merged with the length, and the low offset byte. -/
def serializeToken : Token → List Nat
  | Token.lit b => if b = 255 then [255, 0] else [b]
  | Token.backref o l => [255, ((o &&& 768) >>> 2 ||| l) % 256, o % 256]

/-- Serialization of a token list by concatenation. -/
def serializeTokens (ts : List Token) : List Nat :=
  ts.foldr (fun t acc => serializeToken t ++ acc) []

/-- Token-level view of the `compress` loop: identical control flow to
`compressFrom`, emitting `Token`s instead of their bytes. -/
def compressTokensFrom (src : List Nat) : Nat → Nat → List Token
  | 0, _ => []
  | fuel + 1, i =>
    if i < src.length then
      let ws := i - 1024
      let j := (bestMatch src ws i).1
      let len := min (bestMatch src ws i).2 63
      if 3 < litCost src (ws + j) len then
        Token.backref (i - ws - j - 1) len :: compressTokensFrom src fuel (i + len)
      else
        Token.lit (src.getD i 0) :: compressTokensFrom src fuel (i + 1)
    else []

/-- Token-level view of `compress`. -/
def compressTokens (src : List Nat) : List Token :=
  compressTokensFrom src src.length 0

/-- Modelled from the spec: the self-referential copy of the decompressor
(the calculator-side routine is not under `src/`). Appends to `buf`, one
byte at a time, `n` bytes read from position `start` onward of the growing
buffer, so a copy may overlap the bytes it is itself producing. -/
def lzAppend : List Nat → Nat → Nat → List Nat
  | buf, _, 0 => buf
  | buf, start, n + 1 => lzAppend (buf ++ [buf.getD start 0]) (start + 1) n

/-- Modelled from the spec: the inverse of the token scheme of §4.1 (the
calculator-side decompressor is not under `src/`). A flag byte 0xFF followed
by 0x00 is a literal 0xFF; a flag byte followed by two other bytes is a
back-reference copying `length` (low 6 bits of the second byte) bytes
starting `offset + 1` bytes (offset = high 2 bits of the second byte, then
the third byte) before the current output position; any other byte is a
literal. -/
def decode : List Nat → List Nat → List Nat
  | buf, [] => buf
  | buf, b :: rest =>
    if b = 255 then
      match rest with
      | [] => buf
      | b1 :: rest2 =>
        if b1 = 0 then decode (buf ++ [255]) rest2
        else
          match rest2 with
          | [] => buf
          | b2 :: rest3 =>
            decode (lzAppend buf (buf.length - (b1 / 64 * 256 + b2 + 1)) (b1 % 64)) rest3
    else decode (buf ++ [b]) rest

/-- The target calculator (main.rs lines 56-61). -/
inductive Calc where
  | ti89 : Calc
  | ti92p : Calc
  | v200 : Calc
deriving DecidableEq

/-- The signature field bytes (main.rs lines 226-232): ASCII of the string
literal chosen by the calculator variant, TI89 getting its own signature and
the other two variants sharing one. -/
def signature : Calc → List Nat
  | Calc.ti89 => [42, 42, 84, 73, 56, 57, 42, 42]
  | _ => [42, 42, 84, 73, 57, 50, 80, 42]

/-- The `OTH_CH8` trailer constant (main.rs line 81). -/
def othCh8 : List Nat := [0, 99, 104, 56, 0, 248]

/-- The 2-byte `datasize` field value (main.rs lines 219-221):
`(datasize + 3 + ext_len + 3) as u16`. -/
def datasizeField (l ext : Nat) : Nat := (l + 3 + ext + 3) % 65536

/-- The nested 4-byte `size` subfield value (main.rs lines 222-225):
`(ch8_header::SIZE + datasize + 5 + ext_len) as u32` with header size 91. -/
def sizeField (l ext : Nat) : Nat := (91 + l + 5 + ext) % 4294967296

/-- Little-endian bytes of a 4-byte value. -/
def le32 (v : Nat) : List Nat :=
  [v % 256, v / 256 % 256, v / 65536 % 256, v / 16777216 % 256]

/-- Big-endian bytes of a value below 65536. -/
def be16 (v : Nat) : List Nat := [v / 256, v % 256]

/-- The `strncpy` helper (main.rs lines 112-119) at width 8: copy the first
8 bytes of `s`, padding with zeros when `s` is shorter. -/
def strncpy8 (s : List Nat) : List Nat :=
  (List.range 8).map (fun k => s.getD k 0)

/-- The first 86 header bytes, in the big-endian layout of `ch8_header`
(main.rs lines 65-79) as filled by `fill_header` (lines 196-238): signature
(8), fill1 = 0x0100 (2), folder (8), untouched `_desc` (40 zero bytes from
the `[0u8; 91]` initialization), fill2 (6), name (8), fill3 = 0x1C000000
(4), the little-endian nested size subfield (4), fill4 (6). -/
def headerFront (cal : Calc) (folder name : List Nat) (l ext : Nat) : List Nat :=
  signature cal ++ [1, 0] ++ strncpy8 folder ++ List.replicate 40 0 ++
    [1, 0, 82, 0, 0, 0] ++ strncpy8 name ++ [28, 0, 0, 0] ++
    le32 (sizeField l ext) ++ [165, 90, 0, 0, 0, 0]

/-- The full 91-byte header: the first 86 bytes, then the big-endian
`datasize` field at offset 86, then the version triple 1, 0, 0. -/
def headerBytes (cal : Calc) (folder name : List Nat) (l ext : Nat) : List Nat :=
  headerFront cal folder name l ext ++ be16 (datasizeField l ext) ++ [1, 0, 0]

/-- `compute_checksum` (main.rs lines 240-245): fold the bytes with wrapping
u16 addition and return the sum as 2 little-endian bytes. -/
def computeChecksum (data : List Nat) : List Nat :=
  [data.foldl (fun a x => (a + x) % 65536) 0 % 256,
   data.foldl (fun a x => (a + x) % 65536) 0 / 256]

/-- The four buffers handed to `writev` by `main` (main.rs lines 275-287):
header, compressed payload, trailer, and the checksum computed over the
header from the `datasize` offset 86 onward, the payload, and the trailer. -/
def outputBufs (rom : List Nat) (cal : Calc) (folder name : List Nat) : List (List Nat) :=
  let storage := compress rom
  let header := headerBytes cal folder name storage.length 3
  [header, storage, othCh8,
   computeChecksum (header.drop 86 ++ storage ++ othCh8)]

/-- The assembled output stream, the concatenation of the `writev` buffers. -/
def outputBytes (rom : List Nat) (cal : Calc) (folder name : List Nat) : List Nat :=
  (outputBufs rom cal folder name).foldr (fun b acc => b ++ acc) []

/-- The only error `main` produces itself (main.rs line 257). -/
inductive ConvError where
  | invalidData : ConvError
deriving DecidableEq

/-- Observable steps of `main` in source order (main.rs lines 247-288):
the size check at line 256, the `compress` call at line 262, the
`File::create` at line 273, and the `writev` at line 275. -/
inductive Event where
  | sizeChecked : Event
  | ranCompress : Event
  | createdOutput : Event
  | wroteOutput : Event
deriving DecidableEq

/-- The conversion performed by `main` after the ROM bytes are read
(main.rs lines 256-288), with an event trace recording which steps ran:
a ROM longer than 0x1000 bytes fails with `InvalidData` right after the
size check, before `compress` runs and before the output file is created;
otherwise the full output stream is produced. -/
def convert (rom : List Nat) (cal : Calc) (folder name : List Nat) :
    List Event × Except ConvError (List Nat) :=
  if rom.length > 4096 then
    ([Event.sizeChecked], Except.error ConvError.invalidData)
  else
    ([Event.sizeChecked, Event.ranCompress, Event.createdOutput, Event.wroteOutput],
     Except.ok (outputBytes rom cal folder name))

/-- Concatenation of the `writev` buffers. -/
def joinBufs (bufs : List (List Nat)) : List Nat :=
  bufs.foldr (fun b acc => b ++ acc) []

/-- Model of `writev` (main.rs lines 123-128) against a destination that
accepts at most `cap` bytes before failing: `write_all` is sequential, so
the destination ends up with the first `cap` bytes of the concatenated
buffers and the call fails when the stream does not fit. The output file
already exists at this point (`File::create`, main.rs line 273). -/
def writevModel (cap : Nat) (bufs : List (List Nat)) : List Nat × Bool :=
  if (joinBufs bufs).length ≤ cap then (joinBufs bufs, true)
  else ((joinBufs bufs).take cap, false)

/-- The all-or-nothing property claimed for the packager: after a write
with budget `cap`, the destination holds either the complete stream or
nothing. -/
def atomicWrite (cap : Nat) (bufs : List (List Nat)) : Prop :=
  (writevModel cap bufs).1 = joinBufs bufs ∨ (writevModel cap bufs).1 = []

/-! Helper lemmas. -/

theorem getD_drop (l : List Nat) (p k : Nat) :
    (l.drop p).getD k 0 = l.getD (p + k) 0 := by
  induction p generalizing l with
  | zero => simp [List.drop]
  | succ p ih =>
    cases l with
    | nil => simp [List.getD]
    | cons a l =>
      simpa [List.drop, Nat.succ_add] using ih l

theorem take_succ_getD (l : List Nat) (i : Nat) (h : i < l.length) :
    l.take (i + 1) = l.take i ++ [l.getD i 0] := by
  induction i generalizing l with
  | zero =>
    cases l with
    | nil => simp at h
    | cons a l => simp [List.getD]
  | succ i ih =>
    cases l with
    | nil => simp at h
    | cons a l =>
      simp only [List.length_cons, Nat.succ_lt_succ_iff] at h
      simp [List.take, List.getD, ih l h]

theorem commonLen_le_right (a b : List Nat) : commonLen a b ≤ b.length := by
  induction a generalizing b with
  | nil => cases b <;> simp [commonLen]
  | cons x xs ih =>
    cases b with
    | nil => simp [commonLen]
    | cons y ys =>
      simp only [commonLen, List.length_cons]
      split
      · exact Nat.succ_le_succ (ih ys)
      · exact Nat.zero_le _

theorem commonLen_getD (a b : List Nat) (k : Nat) (hk : k < commonLen a b) :
    a.getD k 0 = b.getD k 0 := by
  induction a generalizing b k with
  | nil => cases b <;> simp [commonLen] at hk
  | cons x xs ih =>
    cases b with
    | nil => simp [commonLen] at hk
    | cons y ys =>
      simp only [commonLen] at hk
      split at hk
      · cases k with
        | zero => simpa [List.getD]
        | succ k =>
          simpa [List.getD] using ih ys k (Nat.lt_of_succ_lt_succ hk)
      · simp at hk

theorem commonLen_pos (a b : List Nat) (ha : a ≠ []) (hb : b ≠ [])
    (h : a.getD 0 0 = b.getD 0 0) : 1 ≤ commonLen a b := by
  cases a with
  | nil => exact absurd rfl ha
  | cons x xs =>
    cases b with
    | nil => exact absurd rfl hb
    | cons y ys =>
      have hxy : x = y := by simpa using h
      simp [commonLen, hxy]

theorem matchLen_le (src : List Nat) (p i : Nat) :
    matchLen src p i ≤ src.length - i := by
  have := commonLen_le_right (src.drop p) (src.drop i)
  simpa [matchLen, List.length_drop] using this

theorem matchLen_getD (src : List Nat) (p i k : Nat) (hk : k < matchLen src p i) :
    src.getD (p + k) 0 = src.getD (i + k) 0 := by
  have := commonLen_getD (src.drop p) (src.drop i) k hk
  rwa [getD_drop, getD_drop] at this

theorem matchLen_pos (src : List Nat) (p i : Nat) (hp : p < src.length)
    (hi : i < src.length) (h : src.getD p 0 = src.getD i 0) :
    1 ≤ matchLen src p i := by
  apply commonLen_pos
  · simpa [List.drop_eq_nil_iff_le] using hp
  · simpa [List.drop_eq_nil_iff_le] using hi
  · rw [getD_drop, getD_drop]
    simpa using h

theorem foldl_cost_le (l : List Nat) (a : Nat) :
    l.foldl (fun a e => a + if e = 255 then 2 else 1) a ≤ a + 2 * l.length := by
  induction l generalizing a with
  | nil => simp
  | cons x xs ih =>
    simp only [List.foldl, List.length_cons]
    calc xs.foldl (fun a e => a + if e = 255 then 2 else 1)
          (a + if x = 255 then 2 else 1)
        ≤ (a + if x = 255 then 2 else 1) + 2 * xs.length := ih _
      _ ≤ a + 2 * (xs.length + 1) := by split <;> omega

theorem litCost_le (src : List Nat) (p len : Nat) :
    litCost src p len ≤ 2 * len := by
  have h := foldl_cost_le ((src.drop p).take len) 0
  have h2 : ((src.drop p).take len).length ≤ len := by
    simp [List.length_take]
  calc litCost src p len ≤ 0 + 2 * ((src.drop p).take len).length := h
    _ ≤ 2 * len := by omega

theorem lzAppend_take (src : List Nat) (i p len : Nat) (hp : p < i)
    (hlen : i + len ≤ src.length)
    (hmatch : ∀ k, k < len → src.getD (p + k) 0 = src.getD (i + k) 0) :
    lzAppend (src.take i) p len = src.take (i + len) := by
  induction len generalizing i p with
  | zero => simp [lzAppend]
  | succ n ih =>
    have hi : i < src.length := by omega
    have hgd : (src.take i).getD p 0 = src.getD p 0 := by
      have hlt : p < (src.take i).length := by
        simp only [List.length_take]
        omega
      calc (src.take i).getD p 0
          = ((src.take i).drop p).getD 0 0 := by rw [getD_drop]; simp
        _ = ((src.drop p).take (i - p)).getD 0 0 := by
            rw [List.drop_take]
        _ = (src.drop p).getD 0 0 := by
            cases hdp : src.drop p with
            | nil =>
              simp [hdp]
            | cons y ys =>
              have : 0 < i - p := by omega
              cases him : i - p with
              | zero => omega
              | succ m => simp [hdp, him, List.getD]
        _ = src.getD p 0 := by rw [getD_drop]; simp
    have step : lzAppend (src.take i) p (n + 1)
        = lzAppend (src.take (i + 1)) (p + 1) n := by
      have h0 := hmatch 0 (Nat.succ_pos n)
      simp only [lzAppend]
      congr 1
      rw [hgd, take_succ_getD src i hi]
      congr 1
      simp only [Nat.add_zero] at h0
      rw [h0]
    rw [step]
    have := ih (i + 1) (p + 1) (by omega) (by omega)
      (fun k hk => by
        have := hmatch (k + 1) (by omega)
        simpa [Nat.add_assoc, Nat.add_comm 1 k] using this)
    rw [this]
    congr 1
    omega

theorem reduceMax_spec (cs : List (Nat × Nat)) :
    ∀ c : Nat × Nat, (c :: cs).Pairwise (fun a b => a.1 < b.1) →
      (cs.foldl (fun a b => if a.2 ≥ b.2 then a else b) c) ∈ c :: cs ∧
      (∀ x ∈ c :: cs, x.2 ≤ (cs.foldl (fun a b => if a.2 ≥ b.2 then a else b) c).2) ∧
      (∀ x ∈ c :: cs, x.2 = (cs.foldl (fun a b => if a.2 ≥ b.2 then a else b) c).2 →
        (cs.foldl (fun a b => if a.2 ≥ b.2 then a else b) c).1 ≤ x.1) ∧
      ((cs.foldl (fun a b => if a.2 ≥ b.2 then a else b) c) = c ∨
        c.2 < (cs.foldl (fun a b => if a.2 ≥ b.2 then a else b) c).2) := by
  induction cs with
  | nil =>
    intro c _
    refine ⟨List.mem_singleton_self c, ?_, ?_, Or.inl rfl⟩
    · intro x hx
      rw [List.mem_singleton] at hx
      simp [hx]
    · intro x hx _
      rw [List.mem_singleton] at hx
      simp [hx]
  | cons d ds ih =>
    intro c hpw
    have hcd : c.1 < d.1 := (List.pairwise_cons.mp hpw).1 d (List.mem_cons_self d ds)
    have hpw2 : (d :: ds).Pairwise (fun a b => a.1 < b.1) :=
      (List.pairwise_cons.mp hpw).2
    simp only [List.foldl]
    by_cases hle : c.2 ≥ d.2
    · have hstep : (if c.2 ≥ d.2 then c else d) = c := if_pos hle
      rw [hstep]
      have hpwc : (c :: ds).Pairwise (fun a b => a.1 < b.1) := by
        rw [List.pairwise_cons]
        constructor
        · intro x hx
          exact lt_trans hcd ((List.pairwise_cons.mp hpw2).1 x hx)
        · exact (List.pairwise_cons.mp hpw2).2
      obtain ⟨hmem, hmax, htie, hhead⟩ := ih c hpwc
      refine ⟨?_, ?_, ?_, ?_⟩
      · rcases List.mem_cons.mp hmem with h | h
        · rw [h]
          exact List.mem_cons_self _ _
        · exact List.mem_cons_of_mem _ (List.mem_cons_of_mem _ h)
      · intro x hx
        rcases List.mem_cons.mp hx with h | h
        · exact hmax x (h ▸ List.mem_cons_self _ _)
        · rcases List.mem_cons.mp h with h2 | h2
          · have h3 : c.2 ≤ (ds.foldl (fun a b => if a.2 ≥ b.2 then a else b) c).2 :=
              hmax c (List.mem_cons_self _ _)
            have : x.2 ≤ c.2 := h2 ▸ hle
            omega
          · exact hmax x (List.mem_cons_of_mem _ h2)
      · intro x hx hx2
        rcases List.mem_cons.mp hx with h | h
        · exact htie x (h ▸ List.mem_cons_self _ _) hx2
        · rcases List.mem_cons.mp h with h2 | h2
          · subst h2
            rcases hhead with hr | hr
            · rw [hr]
              exact le_of_lt hcd
            · have : x.2 ≤ c.2 := hle
              omega
          · exact htie x (List.mem_cons_of_mem _ h2) hx2
      · rcases hhead with hr | hr
        · exact Or.inl hr
        · exact Or.inr hr
    · have hstep : (if c.2 ≥ d.2 then c else d) = d := if_neg hle
      rw [hstep]
      obtain ⟨hmem, hmax, htie, hhead⟩ := ih d hpw2
      have hcd2 : c.2 < d.2 := Nat.lt_of_not_le hle
      have hdle : d.2 ≤ (ds.foldl (fun a b => if a.2 ≥ b.2 then a else b) d).2 :=
        hmax d (List.mem_cons_self _ _)
      refine ⟨?_, ?_, ?_, ?_⟩
      · exact List.mem_cons_of_mem _ hmem
      · intro x hx
        rcases List.mem_cons.mp hx with h | h
        · subst h
          omega
        · exact hmax x h
      · intro x hx hx2
        rcases List.mem_cons.mp hx with h | h
        · subst h
          omega
        · exact htie x h hx2
      · right
        omega

theorem candList_mem (src : List Nat) (ws i : Nat) (x : Nat × Nat) :
    x ∈ candList src ws i ↔
      x.1 < i - ws ∧ src.getD (ws + x.1) 0 = src.getD i 0 ∧
        x.2 = matchLen src (ws + x.1) i := by
  simp only [candList, List.mem_map, List.mem_filter, List.mem_range, beq_iff_eq]
  constructor
  · rintro ⟨j, ⟨hj, hcand⟩, rfl⟩
    exact ⟨hj, hcand, rfl⟩
  · rintro ⟨hj, hcand, hsnd⟩
    refine ⟨x.1, ⟨hj, hcand⟩, ?_⟩
    rw [← hsnd]

theorem candList_pairwise (src : List Nat) (ws i : Nat) :
    (candList src ws i).Pairwise (fun a b => a.1 < b.1) := by
  apply List.Pairwise.map
  · intro a b (h : a < b)
    exact h
  · exact List.Pairwise.filter _ (List.pairwise_lt_range _)

theorem bestMatch_mem (src : List Nat) (ws i : Nat) :
    bestMatch src ws i = (0, 0) ∨ bestMatch src ws i ∈ candList src ws i := by
  cases h : candList src ws i with
  | nil => left; simp [bestMatch, h]
  | cons c cs =>
    right
    have hpw : (c :: cs).Pairwise (fun a b => a.1 < b.1) := by
      rw [← h]; exact candList_pairwise src ws i
    have hmem := (reduceMax_spec cs c hpw).1
    have hb : bestMatch src ws i = cs.foldl (fun a b => if a.2 ≥ b.2 then a else b) c := by
      unfold bestMatch
      rw [h]
    rw [hb]
    exact hmem

theorem bestMatch_spec (src : List Nat) (ws i : Nat)
    (h : (bestMatch src ws i).2 ≠ 0) :
    (bestMatch src ws i).1 < i - ws ∧
      src.getD (ws + (bestMatch src ws i).1) 0 = src.getD i 0 ∧
      (bestMatch src ws i).2 = matchLen src (ws + (bestMatch src ws i).1) i := by
  rcases bestMatch_mem src ws i with h0 | hm
  · rw [h0] at h
    exact absurd rfl h
  · exact (candList_mem src ws i _).mp hm

/-! Bit arithmetic of the back-reference token byte. -/

theorem land768_shift : ∀ o < 1024, (o &&& 768) >>> 2 = o / 256 * 64 := by
  decide

theorem lor_small : ∀ k < 4, ∀ l < 64, (k * 64) ||| l = k * 64 + l := by
  decide

theorem tokenByte_eq (o l : Nat) (ho : o ≤ 1023) (hl : l ≤ 63) :
    ((o &&& 768) >>> 2 ||| l) % 256 = o / 256 * 64 + l := by
  rw [land768_shift o (by omega), lor_small (o / 256) (by omega) l (by omega)]
  have : o / 256 * 64 + l < 256 := by omega
  exact Nat.mod_eq_of_lt this

/-! One-step unfolding of the fuelled loops and of the decoder. -/

theorem compressFrom_succ (src : List Nat) (fuel i : Nat) :
    compressFrom src (fuel + 1) i =
      if i < src.length then
        if 3 < litCost src (i - 1024 + (bestMatch src (i - 1024) i).1)
            (min (bestMatch src (i - 1024) i).2 63) then
          255 ::
            (((i - (i - 1024) - (bestMatch src (i - 1024) i).1 - 1) &&& 768) >>> 2 |||
              min (bestMatch src (i - 1024) i).2 63) % 256 ::
            (i - (i - 1024) - (bestMatch src (i - 1024) i).1 - 1) % 256 ::
            compressFrom src fuel (i + min (bestMatch src (i - 1024) i).2 63)
        else
          pushLiteral (src.getD i 0) ++ compressFrom src fuel (i + 1)
      else [] := rfl

theorem compressTokensFrom_succ (src : List Nat) (fuel i : Nat) :
    compressTokensFrom src (fuel + 1) i =
      if i < src.length then
        if 3 < litCost src (i - 1024 + (bestMatch src (i - 1024) i).1)
            (min (bestMatch src (i - 1024) i).2 63) then
          Token.backref (i - (i - 1024) - (bestMatch src (i - 1024) i).1 - 1)
              (min (bestMatch src (i - 1024) i).2 63) ::
            compressTokensFrom src fuel (i + min (bestMatch src (i - 1024) i).2 63)
        else
          Token.lit (src.getD i 0) :: compressTokensFrom src fuel (i + 1)
      else [] := rfl

theorem decode_flag_zero (buf s : List Nat) :
    decode buf (255 :: 0 :: s) = decode (buf ++ [255]) s := by
  rw [decode.eq_def]
  simp

theorem decode_backref (buf : List Nat) (b1 b2 : Nat) (s : List Nat) (h1 : b1 ≠ 0) :
    decode buf (255 :: b1 :: b2 :: s) =
      decode (lzAppend buf (buf.length - (b1 / 64 * 256 + b2 + 1)) (b1 % 64)) s := by
  rw [decode.eq_def]
  simp [h1]

theorem decode_lit (buf : List Nat) (b : Nat) (s : List Nat) (h : b ≠ 255) :
    decode buf (b :: s) = decode (buf ++ [b]) s := by
  rw [decode.eq_def]
  simp [h]

/-! The round-trip invariant: after the loop has consumed `i` input bytes,
the decoder applied to the remaining compressed stream, starting from the
already-reconstructed first `i` bytes, rebuilds the whole input. -/

theorem decode_compressFrom (src : List Nat) :
    ∀ fuel i, src.length ≤ i + fuel → i ≤ src.length →
      decode (src.take i) (compressFrom src fuel i) = src := by
  intro fuel
  induction fuel with
  | zero =>
    intro i h1 h2
    have hi : i = src.length := by omega
    subst hi
    simp [compressFrom, decode]
  | succ fuel ih =>
    intro i h1 h2
    by_cases hi : i < src.length
    · rw [compressFrom_succ, if_pos hi]
      by_cases hc : 3 < litCost src (i - 1024 + (bestMatch src (i - 1024) i).1)
          (min (bestMatch src (i - 1024) i).2 63)
      · rw [if_pos hc]
        set ws := i - 1024 with hws
        set bm := bestMatch src ws i with hbm
        set len := min bm.2 63 with hlen
        set off := i - ws - bm.1 - 1 with hoff
        have hwsle : ws ≤ i := Nat.sub_le _ _
        have hwin : i - ws ≤ 1024 := by omega
        have hcost := litCost_le src (ws + bm.1) len
        have hlen2 : 2 ≤ len := by omega
        have hl0 : bm.2 ≠ 0 := by
          intro h0
          rw [hlen, h0] at hlen2
          simp at hlen2
        obtain ⟨hjlt, hcand, hml⟩ := bestMatch_spec src ws i hl0
        rw [← hbm] at hjlt hcand hml
        have hoffle : off ≤ 1023 := by omega
        have hlenle : len ≤ bm.2 := min_le_left _ _
        have hle : i + len ≤ src.length := by
          have := matchLen_le src (ws + bm.1) i
          omega
        rw [tokenByte_eq off len hoffle (min_le_right _ _)]
        have hb1ne : off / 256 * 64 + len ≠ 0 := by omega
        rw [decode_backref _ _ _ _ hb1ne]
        have hdiv : (off / 256 * 64 + len) / 64 = off / 256 := by omega
        have hmod : (off / 256 * 64 + len) % 64 = len := by omega
        rw [hdiv, hmod]
        have hlt : (src.take i).length = i := by
          rw [List.length_take]
          omega
        have hpos : off / 256 * 256 + off % 256 + 1 = off + 1 := by omega
        rw [hlt, hpos]
        have hstart : i - (off + 1) = ws + bm.1 := by omega
        rw [hstart]
        rw [lzAppend_take src i (ws + bm.1) len (by omega) hle
          (fun k hk => matchLen_getD src (ws + bm.1) i k (by omega))]
        exact ih (i + len) (by omega) (by omega)
      · rw [if_neg hc]
        by_cases hb : src.getD i 0 = 255
        · rw [hb]
          have hp : pushLiteral 255 = [255, 0] := rfl
          rw [hp, List.cons_append, List.cons_append, List.nil_append, decode_flag_zero]
          have ht : src.take i ++ [255] = src.take (i + 1) := by
            rw [take_succ_getD src i hi, hb]
          rw [ht]
          exact ih (i + 1) (by omega) (by omega)
        · have hp : pushLiteral (src.getD i 0) = [src.getD i 0] := by
            simp only [pushLiteral, if_neg hb]
          rw [hp, List.cons_append, List.nil_append, decode_lit _ _ _ hb,
            ← take_succ_getD src i hi]
          exact ih (i + 1) (by omega) (by omega)
    · have heq : i = src.length := by omega
      rw [compressFrom_succ, if_neg hi]
      subst heq
      simp [decode]

/-! Token-level facts about the compressor. -/

theorem compressFrom_eq_serialize (src : List Nat) :
    ∀ fuel i, compressFrom src fuel i = serializeTokens (compressTokensFrom src fuel i) := by
  intro fuel
  induction fuel with
  | zero => intro i; rfl
  | succ fuel ih =>
    intro i
    rw [compressFrom_succ, compressTokensFrom_succ]
    by_cases hi : i < src.length
    · rw [if_pos hi, if_pos hi]
      by_cases hc : 3 < litCost src (i - 1024 + (bestMatch src (i - 1024) i).1)
          (min (bestMatch src (i - 1024) i).2 63)
      · rw [if_pos hc, if_pos hc, ih]
        rfl
      · rw [if_neg hc, if_neg hc, ih]
        rfl
    · rw [if_neg hi, if_neg hi]
      rfl

theorem compressTokensFrom_backref (src : List Nat) :
    ∀ fuel i o l, Token.backref o l ∈ compressTokensFrom src fuel i →
      2 ≤ l ∧ l ≤ 63 ∧ o ≤ 1023 := by
  intro fuel
  induction fuel with
  | zero =>
    intro i o l h
    simp [compressTokensFrom] at h
  | succ fuel ih =>
    intro i o l h
    rw [compressTokensFrom_succ] at h
    by_cases hi : i < src.length
    · rw [if_pos hi] at h
      by_cases hc : 3 < litCost src (i - 1024 + (bestMatch src (i - 1024) i).1)
          (min (bestMatch src (i - 1024) i).2 63)
      · rw [if_pos hc] at h
        rcases List.mem_cons.mp h with h1 | h1
        · have hcost := litCost_le src (i - 1024 + (bestMatch src (i - 1024) i).1)
            (min (bestMatch src (i - 1024) i).2 63)
          have hm63 : min (bestMatch src (i - 1024) i).2 63 ≤ 63 := min_le_right _ _
          injection h1 with ho hl
          subst ho
          subst hl
          refine ⟨by omega, hm63, by omega⟩
        · exact ih _ _ _ h1
      · rw [if_neg hc] at h
        rcases List.mem_cons.mp h with h1 | h1
        · exact Token.noConfusion h1
        · exact ih _ _ _ h1
    · rw [if_neg hi] at h
      simp at h

theorem compressFrom_length_le (src : List Nat) :
    ∀ fuel i, (compressFrom src fuel i).length ≤ 2 * (src.length - i) := by
  intro fuel
  induction fuel with
  | zero =>
    intro i
    simp [compressFrom]
  | succ fuel ih =>
    intro i
    rw [compressFrom_succ]
    by_cases hi : i < src.length
    · rw [if_pos hi]
      by_cases hc : 3 < litCost src (i - 1024 + (bestMatch src (i - 1024) i).1)
          (min (bestMatch src (i - 1024) i).2 63)
      · rw [if_pos hc]
        set ws := i - 1024 with hws
        set bm := bestMatch src ws i with hbm
        set len := min bm.2 63 with hlen
        have hcost := litCost_le src (ws + bm.1) len
        have hlen2 : 2 ≤ len := by omega
        have hl0 : bm.2 ≠ 0 := by
          intro h0
          rw [hlen, h0] at hlen2
          simp at hlen2
        obtain ⟨hjlt, hcand, hml⟩ := bestMatch_spec src ws i hl0
        rw [← hbm] at hml
        have hlenle : len ≤ bm.2 := min_le_left _ _
        have hle : i + len ≤ src.length := by
          have := matchLen_le src (ws + bm.1) i
          omega
        have := ih (i + len)
        simp only [List.length_cons]
        omega
      · rw [if_neg hc]
        have hpl : (pushLiteral (src.getD i 0)).length ≤ 2 := by
          unfold pushLiteral
          split <;> simp
        have := ih (i + 1)
        rw [List.length_append]
        omega
    · rw [if_neg hi]
      simp

theorem compress_length_le (src : List Nat) :
    (compress src).length ≤ 2 * src.length := by
  have := compressFrom_length_le src src.length 0
  simpa [compress] using this

/-! Checksum and header facts. -/

theorem foldl_wrap_sum (l : List Nat) :
    ∀ a, l.foldl (fun a x => (a + x) % 65536) (a % 65536) = (a + l.sum) % 65536 := by
  induction l with
  | nil =>
    intro a
    simp
  | cons x xs ih =>
    intro a
    simp only [List.foldl, List.sum_cons]
    rw [Nat.mod_add_mod, ih (a + x)]
    congr 1
    omega

theorem computeChecksum_eq (data : List Nat) :
    computeChecksum data = [data.sum % 65536 % 256, data.sum % 65536 / 256] := by
  have h := foldl_wrap_sum data 0
  rw [Nat.zero_mod, Nat.zero_add] at h
  rw [computeChecksum, h]

theorem signature_length (c : Calc) : (signature c).length = 8 := by
  cases c <;> rfl

theorem strncpy8_length (s : List Nat) : (strncpy8 s).length = 8 := by
  simp [strncpy8]

theorem headerFront_length (cal : Calc) (folder name : List Nat) (l ext : Nat) :
    (headerFront cal folder name l ext).length = 86 := by
  simp [headerFront, signature_length, strncpy8_length, le32]

theorem headerBytes_length (cal : Calc) (folder name : List Nat) (l ext : Nat) :
    (headerBytes cal folder name l ext).length = 91 := by
  simp [headerBytes, headerFront_length, be16]

theorem headerBytes_drop86 (cal : Calc) (folder name : List Nat) (l ext : Nat) :
    (headerBytes cal folder name l ext).drop 86 =
      be16 (datasizeField l ext) ++ [1, 0, 0] := by
  rw [headerBytes, List.append_assoc]
  rw [List.drop_left' (headerFront_length cal folder name l ext)]

/-! Claim theorems. -/

/-- Claim C1: for every byte sequence of length 0 through 4096, decoding the
output of `compress` with the inverse of the token scheme of §4.1 (flag byte
0xFF then 0x00 is a literal 0xFF; a flag byte followed by two other bytes is
a back-reference copying `length` bytes starting `offset + 1` bytes before
the current output position, possibly overlapping already-decoded output;
any other byte is itself a literal) reproduces the original sequence. -/
theorem claim1_round_trip (src : List Nat) (h1 : src.length ≤ 4096)
    (h2 : ∀ b ∈ src, b < 256) : decode [] (compress src) = src := by
  have h := decode_compressFrom src src.length 0 (by omega) (by omega)
  simpa [compress] using h

theorem claim1_round_trip_w :
    (([255, 7, 7, 7, 7, 7, 7] : List Nat).length ≤ 4096 ∧
      ∀ b ∈ ([255, 7, 7, 7, 7, 7, 7] : List Nat), b < 256) ∧
    decode [] (compress [255, 7, 7, 7, 7, 7, 7]) = [255, 7, 7, 7, 7, 7, 7] :=
  ⟨⟨by decide, by decide⟩, claim1_round_trip [255, 7, 7, 7, 7, 7, 7] (by decide) (by decide)⟩

/-- Claim C2: for every raw image longer than 4096 bytes, the conversion
fails with the invalid-input-size error, the failure is detected before
compression runs, and no output file is created. -/
theorem claim2_size_bound (rom : List Nat) (cal : Calc) (folder name : List Nat)
    (h : 4096 < rom.length) :
    (convert rom cal folder name).2 = Except.error ConvError.invalidData ∧
    Event.ranCompress ∉ (convert rom cal folder name).1 ∧
    Event.createdOutput ∉ (convert rom cal folder name).1 := by
  have h2 : rom.length > 4096 := h
  simp only [convert, if_pos h2]
  exact ⟨trivial, by decide, by decide⟩

theorem claim2_size_bound_w :
    4096 < (List.replicate 4097 0 : List Nat).length ∧
    ((convert (List.replicate 4097 0) Calc.ti89 [] []).2 =
        Except.error ConvError.invalidData ∧
      Event.ranCompress ∉ (convert (List.replicate 4097 0) Calc.ti89 [] []).1 ∧
      Event.createdOutput ∉ (convert (List.replicate 4097 0) Calc.ti89 [] []).1) :=
  ⟨by rw [List.length_replicate]; omega, claim2_size_bound _ Calc.ti89 [] []
    (by rw [List.length_replicate]; omega)⟩

/-- Claim C3 (counterexample): the claim that the empty input yields a
datasize field of 6 and a size field of 96 is false: the code computes
0 + 3 + 3 + 3 = 9 and 91 + 0 + 5 + 3 = 99. -/
theorem claim3_empty_cex :
    ¬ (compress [] = [] ∧ datasizeField 0 3 = 6 ∧ sizeField 0 3 = 96) := by
  decide

/-- Claim C3 (amended): the raw image of length 0 compresses to the empty
byte sequence, and the header built for it has datasize field 9 and size
field 99. -/
theorem claim3_empty :
    compress [] = [] ∧ datasizeField 0 3 = 9 ∧ sizeField 0 3 = 99 := by
  decide

/-- Claim C4: for the compressed payload length of every valid input and
extension length 3, the size subfield equals 91 + L + 5 + 3 and the
datasize field equals L + 3 + 3 + 3; in particular [0x41] compresses to
[0x41] with datasize 10 and size 100. -/
theorem claim4_header_fields (src : List Nat) (h : src.length ≤ 4096) :
    datasizeField (compress src).length 3 = (compress src).length + 3 + 3 + 3 ∧
    sizeField (compress src).length 3 = 91 + (compress src).length + 5 + 3 ∧
    compress [65] = [65] ∧ datasizeField 1 3 = 10 ∧ sizeField 1 3 = 100 := by
  have hb := compress_length_le src
  refine ⟨?_, ?_, by decide, by decide, by decide⟩
  · unfold datasizeField
    omega
  · unfold sizeField
    omega

theorem claim4_header_fields_w :
    ([65] : List Nat).length ≤ 4096 ∧
    (datasizeField (compress [65]).length 3 = (compress [65]).length + 3 + 3 + 3 ∧
      sizeField (compress [65]).length 3 = 91 + (compress [65]).length + 5 + 3 ∧
      compress [65] = [65] ∧ datasizeField 1 3 = 10 ∧ sizeField 1 3 = 100) :=
  ⟨by decide, claim4_header_fields [65] (by decide)⟩

/-- Claim C5: the trailing 2 bytes of the assembled output are the
little-endian encoding of the wrapping 16-bit sum (the plain byte sum
modulo 65536) of exactly the header bytes from offset 86 (the datasize
field, which starts the final 5 header bytes) through the end of the
header, then the payload, then the trailer — nothing before offset 86. -/
theorem claim5_checksum (data rom : List Nat) (cal : Calc) (folder name : List Nat) :
    computeChecksum data = [data.sum % 65536 % 256, data.sum % 65536 / 256] ∧
    (headerBytes cal folder name (compress rom).length 3).length = 91 ∧
    (headerBytes cal folder name (compress rom).length 3).drop 86 =
      be16 (datasizeField (compress rom).length 3) ++ [1, 0, 0] ∧
    outputBytes rom cal folder name =
      headerBytes cal folder name (compress rom).length 3 ++ (compress rom ++ (othCh8 ++
        computeChecksum
          ((headerBytes cal folder name (compress rom).length 3).drop 86 ++
            compress rom ++ othCh8))) := by
  refine ⟨computeChecksum_eq data, headerBytes_length _ _ _ _ _,
    headerBytes_drop86 _ _ _ _ _, ?_⟩
  simp [outputBytes, outputBufs]

/-- Claim C6: at a scan position the compressor selects a candidate of the
greatest match length, and among candidates of equal greatest length it
selects the one with the smallest window index, because a candidate of
equal length never replaces the running best. -/
theorem claim6_greedy_tie (src : List Nat) (i : Nat) (hi : i < src.length) (j' : Nat)
    (hj' : j' < i - (i - 1024))
    (hc : src.getD (i - 1024 + j') 0 = src.getD i 0) :
    (bestMatch src (i - 1024) i).1 < i - (i - 1024) ∧
    src.getD (i - 1024 + (bestMatch src (i - 1024) i).1) 0 = src.getD i 0 ∧
    (bestMatch src (i - 1024) i).2 =
      matchLen src (i - 1024 + (bestMatch src (i - 1024) i).1) i ∧
    matchLen src (i - 1024 + j') i ≤ (bestMatch src (i - 1024) i).2 ∧
    (matchLen src (i - 1024 + j') i = (bestMatch src (i - 1024) i).2 →
      (bestMatch src (i - 1024) i).1 ≤ j') := by
  set ws := i - 1024 with hws
  have hx : (j', matchLen src (ws + j') i) ∈ candList src ws i := by
    rw [candList_mem]
    exact ⟨hj', hc, rfl⟩
  cases h : candList src ws i with
  | nil =>
    rw [h] at hx
    simp at hx
  | cons c cs =>
    have hpw : (c :: cs).Pairwise (fun a b => a.1 < b.1) := by
      rw [← h]
      exact candList_pairwise src ws i
    obtain ⟨hmem, hmax, htie, _⟩ := reduceMax_spec cs c hpw
    have hb : bestMatch src ws i = cs.foldl (fun a b => if a.2 ≥ b.2 then a else b) c := by
      unfold bestMatch
      rw [h]
    rw [h] at hx
    have hmem2 := hmem
    rw [← h, ← hb] at hmem2
    obtain ⟨hp1, hp2, hp3⟩ := (candList_mem src ws i _).mp hmem2
    refine ⟨hp1, hp2, hp3, ?_, ?_⟩
    · have := hmax _ hx
      rw [← hb] at this
      exact this
    · intro he
      rw [hb] at he
      have := htie _ hx he
      rw [← hb] at this
      exact this

theorem claim6_greedy_tie_w :
    (2 < ([1, 1, 1] : List Nat).length ∧ 1 < 2 ∧
      ([1, 1, 1] : List Nat).getD 1 0 = ([1, 1, 1] : List Nat).getD 2 0) ∧
    ((bestMatch [1, 1, 1] 0 2).1 < 2 ∧
      ([1, 1, 1] : List Nat).getD (0 + (bestMatch [1, 1, 1] 0 2).1) 0 =
        ([1, 1, 1] : List Nat).getD 2 0 ∧
      (bestMatch [1, 1, 1] 0 2).2 =
        matchLen [1, 1, 1] (0 + (bestMatch [1, 1, 1] 0 2).1) 2 ∧
      matchLen [1, 1, 1] (0 + 1) 2 ≤ (bestMatch [1, 1, 1] 0 2).2 ∧
      (matchLen [1, 1, 1] (0 + 1) 2 = (bestMatch [1, 1, 1] 0 2).2 →
        (bestMatch [1, 1, 1] 0 2).1 ≤ 1)) :=
  ⟨⟨by decide, by decide, by decide⟩,
    claim6_greedy_tie [1, 1, 1] 2 (by decide) 1 (by decide) (by decide)⟩

/-- Claim C7: every back-reference token emitted by `compress` on a valid
input has length in [1, 63] and offset in [0, 1023], and the byte stream is
the serialization of those tokens. -/
theorem claim7_token_ranges (src : List Nat) (h : src.length ≤ 4096) :
    compress src = serializeTokens (compressTokens src) ∧
    ∀ o l, Token.backref o l ∈ compressTokens src →
      1 ≤ l ∧ l ≤ 63 ∧ o ≤ 1023 := by
  refine ⟨compressFrom_eq_serialize src src.length 0, ?_⟩
  intro o l hm
  obtain ⟨h2, h63, ho⟩ := compressTokensFrom_backref src src.length 0 o l hm
  exact ⟨by omega, h63, ho⟩

theorem claim7_token_ranges_w :
    ([7, 7, 7, 7, 7, 7, 7, 7] : List Nat).length ≤ 4096 ∧
    (compress [7, 7, 7, 7, 7, 7, 7, 7] =
        serializeTokens (compressTokens [7, 7, 7, 7, 7, 7, 7, 7]) ∧
      ∀ o l, Token.backref o l ∈ compressTokens [7, 7, 7, 7, 7, 7, 7, 7] →
        1 ≤ l ∧ l ≤ 63 ∧ o ≤ 1023) :=
  ⟨by decide, claim7_token_ranges [7, 7, 7, 7, 7, 7, 7, 7] (by decide)⟩

/-- Claim C8 (counterexample): the write is not all-or-nothing — a
destination failing after 50 bytes is left holding a nonempty strict prefix
of the conversion output for the input [0x41]. -/
theorem claim8_atomic_cex :
    ¬ atomicWrite 50 (outputBufs [65] Calc.ti89 [109, 97, 105, 110] [114, 111, 109]) := by
  unfold atomicWrite
  decide

/-- Claim C8 (amended): the write of header, payload, trailer, and checksum
is sequential, not atomic: the destination is left with a prefix of the
assembled stream, the complete stream exactly when it fits the destination's
budget (in which case the call succeeds); a failure partway leaves a
truncated file at the output path. -/
theorem claim8_sequential_write (cap : Nat) (bufs : List (List Nat)) :
    (writevModel cap bufs).1 = (joinBufs bufs).take cap ∧
    ((writevModel cap bufs).2 = true ↔ (joinBufs bufs).length ≤ cap) := by
  unfold writevModel
  by_cases h : (joinBufs bufs).length ≤ cap
  · rw [if_pos h]
    exact ⟨(List.take_of_length_le h).symm, by simpa using h⟩
  · rw [if_neg h]
    exact ⟨rfl, by simpa using h⟩

/-- Claim C9: the compressed stream is at most twice the input length, so a
valid input (at most 4096 bytes) compresses to at most 8192 bytes and the
header's datasize and size fields are computed without wrap-around. -/
theorem claim9_bounded_expansion (src : List Nat) (h : src.length ≤ 4096) :
    (compress src).length ≤ 2 * src.length ∧
    (compress src).length ≤ 8192 ∧
    datasizeField (compress src).length 3 = (compress src).length + 9 ∧
    sizeField (compress src).length 3 = (compress src).length + 99 := by
  have hb := compress_length_le src
  refine ⟨hb, by omega, ?_, ?_⟩
  · unfold datasizeField
    omega
  · unfold sizeField
    omega

theorem claim9_bounded_expansion_w :
    ([1, 2, 3] : List Nat).length ≤ 4096 ∧
    ((compress [1, 2, 3]).length ≤ 2 * ([1, 2, 3] : List Nat).length ∧
      (compress [1, 2, 3]).length ≤ 8192 ∧
      datasizeField (compress [1, 2, 3]).length 3 = (compress [1, 2, 3]).length + 9 ∧
      sizeField (compress [1, 2, 3]).length 3 = (compress [1, 2, 3]).length + 99) :=
  ⟨by decide, claim9_bounded_expansion [1, 2, 3] (by decide)⟩

/-- Claim C10: every back-reference token emitted by `compress` has length
at least 2, so the byte following the flag byte of a back-reference is
nonzero and a 0x00 after a flag byte uniquely identifies an escaped
literal 0xFF. -/
theorem claim10_escape (src : List Nat) (h : src.length ≤ 4096) :
    compress src = serializeTokens (compressTokens src) ∧
    ∀ o l, Token.backref o l ∈ compressTokens src →
      2 ≤ l ∧ (serializeToken (Token.backref o l)).getD 1 0 ≠ 0 := by
  refine ⟨compressFrom_eq_serialize src src.length 0, ?_⟩
  intro o l hm
  obtain ⟨h2, h63, ho⟩ := compressTokensFrom_backref src src.length 0 o l hm
  refine ⟨h2, ?_⟩
  have hg : (serializeToken (Token.backref o l)).getD 1 0 =
      ((o &&& 768) >>> 2 ||| l) % 256 := rfl
  rw [hg, tokenByte_eq o l ho h63]
  omega

theorem claim10_escape_w :
    ([9, 9, 9, 9, 9, 9] : List Nat).length ≤ 4096 ∧
    (compress [9, 9, 9, 9, 9, 9] =
        serializeTokens (compressTokens [9, 9, 9, 9, 9, 9]) ∧
      ∀ o l, Token.backref o l ∈ compressTokens [9, 9, 9, 9, 9, 9] →
        2 ≤ l ∧ (serializeToken (Token.backref o l)).getD 1 0 ≠ 0) :=
  ⟨by decide, claim10_escape [9, 9, 9, 9, 9, 9] (by decide)⟩

end Chip8
